import Mathlib

/-!
Verification of the `ht` HTTP-testing engine (github.com/golint-fixer/ht).

This file gives a shallow embedding, in Lean 4, of the parts of the source
that the checked claims are about:

* `suite/raw.go`   : `RawSuite.Execute`, `NewFileSystem`
* `suite/suite.go` : `Suite.Iterate` variable propagation, `analyseMocks`
* `condition/cond.go` : `Condition.Fullfilled`
* `ht/variables.go`   : `lcm`, `setNowVariable`
* `ht/xml.go`      : `XML.Execute`
* `body.go`        : `UTF8Encoded.Execute`

Go strings are modelled as `List Char`, Go byte slices as `List Nat`,
Go maps used in order-sensitive ways as association lists, and Go's
machine integers as `Int` (no arithmetic here comes close to overflow).
Functions returning Go `error` return an `Option` of an error datatype
(with `none` standing for a `nil` error) or `Except`.
-/

/-- Modelled from the spec: the `ht.Status` enumeration.  The type itself
lives in the `ht` package which is not under `src/`; the spec fixes the
total order `NotRun < Skipped < Pass < Fail < Error < Bogus`, which is
also the order the switch in `suite/suite.go` (`Stats`) enumerates. -/
inductive Status where
  | notRun
  | skipped
  | pass
  | fail
  | error
  | bogus
deriving DecidableEq, Repr, Fintype

/-- Numeric value of a status, inducing the total order of the spec. -/
def Status.toNat : Status → Nat
  | .notRun => 0
  | .skipped => 1
  | .pass => 2
  | .fail => 3
  | .error => 4
  | .bogus => 5

/-- Go's `<` on `ht.Status` values. -/
def statusLt (a b : Status) : Bool := a.toNat < b.toNat

/-- Go's `s > t` comparison on `ht.Status` values. -/
def statusGt (a b : Status) : Bool := b.toNat < a.toNat

/-- The pattern `if t > s { s = t }` used all over the suite runner. -/
def statusMax (s t : Status) : Status := if statusGt t s then t else s

/-- Fold of `statusMax` over a list, starting from `NotRun`; this is the
`for ... { if ts > status { status = ts } }` loop of `RawSuite.Execute`. -/
def statusMaxList (l : List Status) : Status := l.foldl statusMax .notRun

/-- Go `strings.HasPrefix s p` on char lists. -/
def goStartsWith : List Char → List Char → Bool
  | _, [] => true
  | [], _ :: _ => false
  | c :: s, d :: p => c = d && goStartsWith s p

/-- Go `strings.Index s sub`: position of the first occurrence of `sub`
in `s`, `none` for Go's `-1`. -/
def goIndex (s sub : List Char) : Option Nat :=
  if goStartsWith s sub then some 0
  else
    match s with
    | [] => none
    | _ :: t => (goIndex t sub).map (· + 1)

/-- Go `strings.Index(s, sub) != -1`, i.e. substring containment. -/
def goContains (s sub : List Char) : Bool := (goIndex s sub).isSome

/-- Helper for `goCount`: scans `s` left to right; `skip` is the number of
characters still to be consumed by the previously counted occurrence, so
that occurrences are counted non-overlapping exactly as `strings.Count`
does (which always resumes right after each found occurrence). -/
def goCountAux (sub : List Char) : List Char → Nat → Nat
  | [], _ => 0
  | _ :: t, Nat.succ k => goCountAux sub t k
  | c :: t, 0 =>
    if goStartsWith (c :: t) sub then 1 + goCountAux sub t (sub.length - 1)
    else goCountAux sub t 0

/-- Go `strings.Count s sub`: the number of non-overlapping occurrences
of `sub` in `s`; for an empty `sub` Go returns `len(s)+1` rune positions. -/
def goCount (s sub : List Char) : Nat :=
  if sub = [] then s.length + 1 else goCountAux sub s 0

/-- One error of `condition.Condition.Fullfilled`, mirroring the
`fmt.Errorf` sites of `condition/cond.go` (each constructor names the
violated clause). -/
inductive CondErr where
  | badPrefix (got : List Char)
  | badSuffix (got : List Char)
  | missingText
  | forbiddenText
  | foundOccurrences (cnt : Nat)
  | tooShort (was : Nat)
  | tooLong (was : Nat)
deriving DecidableEq, Repr

/-- The `condition.Condition` struct of `condition/cond.go`.  The `Regexp`
clause is not modelled (the regular-expression engine is an external
library); a `Condition` here corresponds to a Go value with `Regexp == nil`.
Field names follow the Go source (capitalised). -/
structure Condition where
  Prefix : List Char := []
  Suffix : List Char := []
  Contains : List Char := []
  Count : Int := 0
  Min : Int := 0
  Max : Int := 0
deriving DecidableEq, Repr

/-- Embedding of `Condition.Fullfilled` from `condition/cond.go`
(for conditions with `Regexp == nil`): the sequence of early-return
checks on Prefix, Suffix, Contains/Count and Min/Max. -/
def Condition.Fullfilled (c : Condition) (s : List Char) : Option CondErr :=
  if c.Prefix ≠ [] ∧ ¬goStartsWith s c.Prefix then
    some (.badPrefix (s.take (min c.Prefix.length s.length)))
  else if c.Suffix ≠ [] ∧ ¬goStartsWith s.reverse c.Suffix.reverse then
    some (.badSuffix (s.drop (s.length - min c.Suffix.length s.length)))
  else if c.Contains ≠ [] ∧ c.Count = 0 ∧ ¬goContains s c.Contains then
    some .missingText
  else if c.Contains ≠ [] ∧ c.Count < 0 ∧ goContains s c.Contains then
    some .forbiddenText
  else if c.Contains ≠ [] ∧ 0 < c.Count ∧ (goCount s c.Contains : Int) ≠ c.Count then
    some (.foundOccurrences (goCount s c.Contains))
  else if 0 < c.Min ∧ (s.length : Int) < c.Min then
    some (.tooShort s.length)
  else if 0 < c.Max ∧ c.Max < (s.length : Int) then
    some (.tooLong s.length)
  else
    none

example : Condition.Fullfilled { Contains := ['f', 'o', 'o'] } ['f', 'o', 'o'] = none := by decide

example : Condition.Fullfilled { Contains := ['f', 'o', 'o'], Count := 2 }
    "foo bar foo".toList = none := by decide

example : Condition.Fullfilled { Prefix := ['x'], Contains := ['a'] } ['a'] =
    some (.badPrefix ['a']) := by decide

/-- Go `strings.SplitN s sep 2`: either `[s]` (separator absent) or the
part before the first occurrence of `sep` and the rest after it. -/
def goSplitN2 (s sep : List Char) : List (List Char) :=
  match goIndex s sep with
  | none => [s]
  | some i => [s.take i, s.drop (i + sep.length)]

/-- White space as tested by Go's `unicode.IsSpace` (the Unicode
`White_Space` property). -/
def goIsSpace (c : Char) : Bool :=
  let n := c.toNat
  n = 9 || n = 10 || n = 11 || n = 12 || n = 13 || n = 32 || n = 133 || n = 160 ||
    n = 0x1680 || (0x2000 ≤ n && n ≤ 0x200A) || n = 0x2028 || n = 0x2029 ||
    n = 0x202F || n = 0x205F || n = 0x3000

/-- Go `strings.TrimSpace`: drop white space from both ends. -/
def goTrimSpace (s : List Char) : List Char :=
  ((s.dropWhile goIsSpace).reverse.dropWhile goIsSpace).reverse

-- ---------------------------------------------------------------------------
-- RawSuite.Execute (suite/raw.go, lines 486-549)

/-- One element of a raw suite, as seen by the executor closure inside
`RawSuite.Execute`.  `enabled` is `rt.IsEnabled()`; `bogus` says whether
`rt.ToTest`/`startMocks` failed (those set `test.Result.Status = ht.Bogus`
before the executor runs; the only other initial status is `NotRun`);
`runStatus` is the status that `test.Run()` would produce for this
element, left abstract since `ht.Test.Run` is outside the suite package. -/
structure RawTestElem where
  enabled : Bool := true
  bogus : Bool := false
  runStatus : Status := .pass
deriving DecidableEq, Repr

/-- A raw suite: ordered Setup, Main and Teardown elements.
`rs.tests` in `suite/raw.go` is their concatenation (built in that order
by `LoadRawSuite`). -/
structure RawSuiteModel where
  Setup : List RawTestElem := []
  Main : List RawTestElem := []
  Teardown : List RawTestElem := []
deriving Repr

/-- The flattened `rs.tests` list of `LoadRawSuite`. -/
def RawSuiteModel.tests (rs : RawSuiteModel) : List RawTestElem :=
  rs.Setup ++ rs.Main ++ rs.Teardown

/-- One call of the executor closure of `RawSuite.Execute` on the element
at 0-based position `k` (Go's `i` equals `k+1` after the increment, so
Go's `isSetup()` is `k < nsetup` and `isSetupOrMain()` is
`k < nsetup + nmain`).  Returns the status the test ends with and the
updated `setupfailures` flag.  The Go switch also skips a test whose
status is already `Skipped`, a case that cannot arise (`ToTest` yields
`NotRun` or `Bogus`). -/
def executorStep (nsetup nmain : Nat) (k : Nat) (sf : Bool) (t : RawTestElem) :
    Status × Bool :=
  if t.enabled = false ∨ (sf = true ∧ k < nsetup + nmain) then
    (.skipped, sf)
  else
    let st := if t.bogus then Status.bogus else t.runStatus
    (st, sf || (statusGt st .pass && decide (k < nsetup)))

/-- The iteration of the executor over the trailing elements of the
suite, starting at position `k` with `setupfailures` flag `sf`:
the statuses assigned to the elements, and the final flag. -/
def executeLoop (nsetup nmain : Nat) : List RawTestElem → Nat → Bool → List Status × Bool
  | [], _, sf => ([], sf)
  | t :: ts, k, sf =>
    let p := executorStep nsetup nmain k sf t
    let r := executeLoop nsetup nmain ts (k + 1) p.2
    (p.1 :: r.1, r.2)

/-- Statuses of all tests of the suite after `RawSuite.Execute` ran the
executor over `rs.tests` (via `Suite.Iterate`; the executor never returns
`ErrAbortExecution`, so every element is processed). -/
def RawSuiteModel.executeStatuses (rs : RawSuiteModel) : List Status :=
  (executeLoop rs.Setup.length rs.Main.length rs.tests 0 false).1

/-- The overall suite status computed at the end of `RawSuite.Execute`:
the loop `for i := 0; i < N-teardown && i < len(suite.Tests); i++`
maximising over the leading statuses. -/
def RawSuiteModel.executeStatus (rs : RawSuiteModel) : Status :=
  statusMaxList
    (rs.executeStatuses.take (rs.tests.length - rs.Teardown.length))

/-- Status an element receives when the executor reaches it with the
`setupfailures` flag off (or past the Setup/Main range): skipped when
disabled, `Bogus` when bogus, otherwise the outcome of `Run()`. -/
def soloStatus (t : RawTestElem) : Status :=
  if t.enabled = false then .skipped
  else if t.bogus then .bogus
  else t.runStatus

-- ---------------------------------------------------------------------------
-- Suite.Iterate variable propagation (suite/suite.go, lines 163-202, 332-355)

/-- What an executed test contributes to the suite scope: its final
status (`test.Status` as read at line 173 of suite/suite.go, i.e. after
`analyseMocks` ran) and the name→value pairs of `test.Extract()`. -/
structure TestOutcome where
  status : Status
  extraction : List (List Char × List Char)

/-- Go map assignment `m[name] = value` on an association-list scope. -/
def setVar (g : List (List Char × List Char)) (name value : List Char) :
    List (List Char × List Char) :=
  if (g.find? fun p => decide (p.1 = name)).isSome then
    g.map fun p => if p.1 = name then (name, value) else p
  else
    g ++ [(name, value)]

/-- The `for varname, value := range test.Extract()` loop body of
`Suite.updateVariables` (the verbosity logging has no effect on the scope). -/
def applyExtraction (g : List (List Char × List Char))
    (ext : List (List Char × List Char)) : List (List Char × List Char) :=
  ext.foldl (fun a p => setVar a p.1 p.2) g

/-- Embedding of `Suite.updateVariables`: an early return unless the
test's status is `Pass`, then every extracted pair is written. -/
def updateVariables (g : List (List Char × List Char)) (t : TestOutcome) :
    List (List Char × List Char) :=
  if t.status ≠ Status.pass then g
  else applyExtraction g t.extraction

/-- The per-test scope update of `Suite.Iterate` (lines 173-174):
`if test.Status == ht.Pass { suite.updateVariables(test) }`. -/
def iterateStep (g : List (List Char × List Char)) (t : TestOutcome) :
    List (List Char × List Char) :=
  if t.status = Status.pass then updateVariables g t else g

/-- The suite scope after `Suite.Iterate` processed the given tests. -/
def iterateGlobals (tests : List TestOutcome)
    (g : List (List Char × List Char)) : List (List Char × List Char) :=
  tests.foldl iterateStep g

-- ---------------------------------------------------------------------------
-- analyseMocks (suite/suite.go, lines 264-318)

/-- One report received over the mock monitor channel: for an invoked
mock, a test named `"Mock <i>: <name>"` with the verdict of the mock's
checks; for a stray call, the `notFoundHandler` report named
`"Not Found <url>"` whose status field is never set (it stays the zero
value `NotRun`). -/
structure MockReport where
  name : List Char
  status : Status
deriving Repr

/-- The `"Mock "` tag that `startMocks` puts in front of mock names. -/
def mockTag : List Char := ['M', 'o', 'c', 'k', ' ']

/-- The name `fmt.Sprintf("Mock %d", i)` used for the invocation set. -/
def mockLabel (i : Nat) : List Char := mockTag ++ Nat.toDigits 10 i

/-- The key under which a monitor report is recorded in the `actual` set
of `analyseMocks`: the part before `": "` when it starts with `"Mock "`. -/
def mockReportKey (mt : MockReport) : Option (List Char) :=
  match goSplitN2 mt.name [':', ' '] with
  | [p0, _] => if goStartsWith p0 mockTag then some p0 else none
  | _ => none

/-- The first loop of `analyseMocks` over `mockResult`, threading
(test status, sub-suite status, actual invocation set): records the
report key, propagates `mt.Status` into the test when larger, and feeds
the sub-suite's `updateStatus`. -/
def analyseStep (st : Status × Status × List (List Char)) (mt : MockReport) :
    Status × Status × List (List Char) :=
  let actual :=
    match mockReportKey mt with
    | some k => st.2.2 ++ [k]
    | none => st.2.2
  (statusMax st.1 mt.status, statusMax st.2.1 mt.status, actual)

/-- The second loop of `analyseMocks`: every declared mock `i` whose
label is missing from the `actual` set contributes a synthesised `Error`
test to the sub-suite (feeding `updateStatus` again). -/
def missingMockFold (actual : List (List Char)) (nmocks : Nat) (sub : Status) :
    Status :=
  (List.range nmocks).foldl
    (fun s i => if mockLabel i ∈ actual then s else statusMax s .error) sub

/-- Embedding of `analyseMocks`: given the test's status after its own
checks, the monitor reports and the number of declared mocks, returns the
test's final status and the generated sub-suite's status. -/
def analyseMocks (testStatus : Status) (mockResult : List MockReport)
    (nmocks : Nat) : Status × Status :=
  let r := mockResult.foldl analyseStep (testStatus, Status.notRun, [])
  let sub := missingMockFold r.2.2 nmocks r.2.1
  let final :=
    if statusGt sub .pass = true ∧ r.1 = Status.pass then Status.fail else r.1
  (final, sub)

-- ---------------------------------------------------------------------------
-- setNowVariable (ht/variables.go, lines 227-268)

/-- The delta interpretation of `setNowVariable`: a matched
`{{NOW [+-] N unit}}` with sign `neg`, magnitude `num` and unit `unit`
becomes an offset in seconds (`off = time.Duration(n) * time.Second`;
we count plain seconds).  The unit switch is copied from the source,
including the day branch's factor `24 * 26 * 60`; an unknown unit is the
`fmt.Errorf("bad now-variable delta unit")` return, here `none`. -/
def nowOffsetSeconds (neg : Bool) (num : Int) (unit : Char) : Option Int :=
  let n := if neg then -num else num
  if unit = 's' then some (n * 1)
  else if unit = 'm' then some (n * 60)
  else if unit = 'h' then some (n * (60 * 60))
  else if unit = 'd' then some (n * (24 * 26 * 60))
  else none

/-- Modelled from the spec: civil date (year, month, day) of a day count
relative to 1970-01-01 (proleptic Gregorian), standing in for the Go
`time` package (not part of this repository).  Algorithm of Howard
Hinnant's `civil_from_days`; all divisions are taken at non-negative
arguments in this development. -/
def civilFromDays (z0 : Int) : Int × Int × Int :=
  let z := z0 + 719468
  let era : Int := (if 0 ≤ z then z else z - 146096) / 146097
  let doe := z - era * 146097
  let yoe := (doe - doe / 1460 + doe / 36524 - doe / 146096) / 365
  let y := yoe + era * 400
  let doy := doe - (365 * yoe + yoe / 4 - yoe / 100)
  let mp := (5 * doy + 2) / 153
  let d := doy - (153 * mp + 2) / 5 + 1
  let m := mp + (if mp < 10 then 3 else -9)
  ((if m ≤ 2 then y + 1 else y), m, d)

/-- Weekday index (0 = Sunday) of a day count from the epoch;
1970-01-01 was a Thursday. -/
def weekdayIndex (days : Int) : Nat := (((days + 4) % 7 + 7) % 7).toNat

/-- Abbreviated weekday name as in Go's RFC1123 layout. -/
def weekdayName (i : Nat) : List Char :=
  (["Sun", "Mon", "Tue", "Wed", "Thu", "Fri", "Sat"].getD i "").toList

/-- Abbreviated month name as in Go's RFC1123 layout (1 = Jan). -/
def monthName (m : Nat) : List Char :=
  (["Jan", "Feb", "Mar", "Apr", "May", "Jun", "Jul", "Aug", "Sep", "Oct",
    "Nov", "Dec"].getD (m - 1) "").toList

/-- Two-digit zero-padded decimal. -/
def pad2 (n : Nat) : List Char :=
  if n < 10 then '0' :: Nat.toDigits 10 n else Nat.toDigits 10 n

/-- Modelled from the spec: Go's `time.Time.Format(time.RFC1123)` for a
UTC time given in Unix seconds — layout `Mon, 02 Jan 2006 15:04:05 MST`
with zone name `UTC`.  (The `time` package is Go's standard library,
not code of this repository.) -/
def formatRFC1123UTC (t : Int) : List Char :=
  let days : Int := Int.fdiv t 86400
  let rem : Nat := (t - 86400 * days).toNat
  let c := civilFromDays days
  weekdayName (weekdayIndex days) ++ (", ").toList ++
    pad2 c.2.2.toNat ++ [' '] ++ monthName c.2.1.toNat ++ [' '] ++
    Nat.toDigits 10 c.1.toNat ++ [' '] ++
    pad2 (rem / 3600) ++ [':'] ++ pad2 (rem % 3600 / 60) ++ [':'] ++
    pad2 (rem % 60) ++ (" UTC").toList

/-- The value `setNowVariable` stores for a `{{NOW ...}}` variable with a
delta and no explicit layout: the current time plus the offset, formatted
with the default layout `time.RFC1123`. -/
def setNowValue (now : Int) (neg : Bool) (num : Int) (unit : Char) :
    Option (List Char) :=
  (nowOffsetSeconds neg num unit).map fun off => formatRFC1123UTC (now + off)

-- ---------------------------------------------------------------------------
-- XML.Execute (ht/xml.go, lines 34-51)

/-- Result of the embedded `XML.Execute`.  `cantCheck` is the
`CantCheck{BodyErr}` return, `parseFailed` the error of `xmlpath.Parse`,
`noSuchElement` the `"No such element"` error, `condFailed` an error of
the embedded Condition. -/
inductive XmlErr where
  | cantCheck
  | parseFailed
  | noSuchElement
  | condFailed (e : CondErr)
deriving DecidableEq, Repr

/-- Embedding of `XML.Execute`.  The XML parser and XPath engine are
external libraries, so they enter as oracles: `bodyErr` says whether
`Response.BodyErr` was set, `parseOk` whether `xmlpath.Parse` succeeded,
and `pathValue` is the string value of the element addressed by the
compiled path (`none` when absent).  The embedded `ht.Condition` is
modelled by `Condition` of this file (the `ht` package's copy is not
under `src/`; spec §4.1 describes the same clauses as
`condition/cond.go`).

The last step mirrors the source literally:

    } else if e := x.Fulfilled(s); err != nil {
        return e
    }

`err` is the variable holding the result of `xmlpath.Parse`, which is
`nil` whenever this line is reached, so the branch tests the wrong
variable and the condition verdict `e` is computed but discarded. -/
def xmlExecute (bodyErr : Bool) (parseOk : Bool) (pathValue : Option (List Char))
    (cond : Condition) : Option XmlErr :=
  if bodyErr then some .cantCheck
  else if parseOk = false then some .parseFailed
  else
    match pathValue with
    | none => some .noSuchElement
    | some s =>
      let e := (cond.Fullfilled s).map XmlErr.condFailed
      let errFromParseIsNil := true
      if errFromParseIsNil = false then e else none

-- ---------------------------------------------------------------------------
-- UTF8Encoded.Execute (body.go, lines 25-40)

/-- Go `utf8.DecodeRune` on a byte list: the first rune and its width.
Acceptance ranges are those of `unicode/utf8` (no overlong forms, no
surrogates, nothing above U+10FFFF); any invalid or truncated encoding
yields `(RuneError, 1)` and an empty input `(RuneError, 0)`.
`0xFFFD` is `utf8.RuneError`. -/
def decodeRune (p : List Nat) : Nat × Nat :=
  match p with
  | [] => (0xFFFD, 0)
  | b0 :: rest =>
    if b0 < 0x80 then (b0, 1)
    else if b0 < 0xC2 then (0xFFFD, 1)
    else if b0 ≤ 0xDF then
      match rest with
      | b1 :: _ =>
        if 0x80 ≤ b1 ∧ b1 ≤ 0xBF then ((b0 - 0xC0) * 64 + (b1 - 0x80), 2)
        else (0xFFFD, 1)
      | [] => (0xFFFD, 1)
    else if b0 ≤ 0xEF then
      match rest with
      | b1 :: b2 :: _ =>
        let lo := if b0 = 0xE0 then 0xA0 else 0x80
        let hi := if b0 = 0xED then 0x9F else 0xBF
        if lo ≤ b1 ∧ b1 ≤ hi ∧ 0x80 ≤ b2 ∧ b2 ≤ 0xBF then
          ((b0 - 0xE0) * 4096 + (b1 - 0x80) * 64 + (b2 - 0x80), 3)
        else (0xFFFD, 1)
      | _ => (0xFFFD, 1)
    else if b0 ≤ 0xF4 then
      match rest with
      | b1 :: b2 :: b3 :: _ =>
        let lo := if b0 = 0xF0 then 0x90 else 0x80
        let hi := if b0 = 0xF4 then 0x8F else 0xBF
        if lo ≤ b1 ∧ b1 ≤ hi ∧ 0x80 ≤ b2 ∧ b2 ≤ 0xBF ∧ 0x80 ≤ b3 ∧ b3 ≤ 0xBF then
          ((b0 - 0xF0) * 262144 + (b1 - 0x80) * 4096 + (b2 - 0x80) * 64 +
            (b3 - 0x80), 4)
        else (0xFFFD, 1)
      | _ => (0xFFFD, 1)
    else (0xFFFD, 1)

/-- Failure of `UTF8Encoded.Execute` with the character offset it reports. -/
inductive Utf8Err where
  | invalid (char : Nat)
  | bom (char : Nat)
deriving DecidableEq, Repr

/-- The decode loop of `UTF8Encoded.Execute`: stop with an error on
`RuneError` or on a BOM (U+FEFF), otherwise advance by the rune's width
and count one character.  `fuel` is a structural-recursion bound; every
iteration consumes at least one byte, so the `fuel = 0` case is
unreachable for `fuel = p.length` (see `utf8Loop_fuel`). -/
def utf8Loop : Nat → List Nat → Nat → Option Utf8Err
  | _, [], _ => none
  | 0, _ :: _, _ => none
  | Nat.succ fuel, b0 :: rest, char =>
    let rs := decodeRune (b0 :: rest)
    if rs.1 = 0xFFFD then some (.invalid char)
    else if rs.1 = 0xFEFF then some (.bom char)
    else utf8Loop fuel (List.drop (rs.2 - 1) rest) (char + 1)

/-- Embedding of `UTF8Encoded.Execute` over the response body bytes. -/
def utf8Execute (body : List Nat) : Option Utf8Err :=
  utf8Loop body.length body 0

-- ---------------------------------------------------------------------------
-- NewFileSystem (suite/raw.go, lines 580-606)

/-- Go `strings.Split(txt, sep)` specialised to the separator `"\n#"`
used by `NewFileSystem`: the pieces of `txt` around each non-overlapping
left-most occurrence of `"\n#"`. -/
def goSplitNlHash : List Char → List (List Char)
  | [] => [[]]
  | '\n' :: '#' :: rest => [] :: goSplitNlHash rest
  | c :: rest =>
    match goSplitNlHash rest with
    | [] => [[c]]
    | p :: ps => (c :: p) :: ps

/-- Errors of `NewFileSystem`: `fmt.Errorf("malformed part %d", i+1)` and
`fmt.Errorf("duplicate name %q", name)`. -/
inductive FsErr where
  | malformedPart (i : Nat)
  | duplicateName (name : List Char)
deriving DecidableEq, Repr

/-- Lookup in the association-list file system (`filesystem[name]`). -/
def fsLookup (fs : List (List Char × List Char)) (name : List Char) :
    Option (List Char) :=
  (fs.find? fun p => decide (p.1 = name)).map fun p => p.2

/-- The `for i, part := range parts` loop of `NewFileSystem` (0-based `i`;
error messages use `i+1` as in the source): trim each part, skip empty
ones, split the first line off as the file name, reject a missing body
line or an empty name as malformed and a second part with a known name
as a duplicate. -/
def newFileSystemLoop :
    List (List Char) → Nat → List (List Char × List Char) →
    Except FsErr (List (List Char × List Char))
  | [], _, fs => .ok fs
  | p :: ps, i, fs =>
    let part := goTrimSpace p
    if part = [] then newFileSystemLoop ps (i + 1) fs
    else
      match goSplitN2 part ['\n'] with
      | [first, body] =>
        let name := goTrimSpace first
        if name = [] then .error (.malformedPart (i + 1))
        else if (fsLookup fs name).isSome then .error (.duplicateName name)
        else newFileSystemLoop ps (i + 1) (fs ++ [(name, body)])
      | _ => .error (.malformedPart (i + 1))

/-- Embedding of `NewFileSystem`: prepend a newline, split on `"\n#"`,
then run the part loop on an empty file system. -/
def newFileSystem (txt : List Char) :
    Except FsErr (List (List Char × List Char)) :=
  newFileSystemLoop (goSplitNlHash ('\n' :: txt)) 0 []

/-- Classification of one raw part, the specification-side reading of the
bundle format: empty parts are skipped, a part is a file when its trimmed
text still has a body line below a non-blank name line, and malformed
otherwise. -/
inductive PartView where
  | empty
  | malformed
  | file (name body : List Char)
deriving DecidableEq, Repr

/-- The specification-side view of one part of a bundle. -/
def partView (p : List Char) : PartView :=
  let part := goTrimSpace p
  if part = [] then .empty
  else
    match goSplitN2 part ['\n'] with
    | [first, body] =>
      if goTrimSpace first = [] then .malformed
      else .file (goTrimSpace first) body
    | _ => .malformed

/-- The name/body pairs of the well-formed file parts, in order. -/
def partEntries (parts : List (List Char)) : List (List Char × List Char) :=
  parts.filterMap fun p =>
    match partView p with
    | .file n b => some (n, b)
    | _ => none

-- ---------------------------------------------------------------------------
-- lcm (ht/variables.go, lines 41-52)

/-- Go 64-bit signed integer wrap-around: the value an `int` takes after
two's-complement overflow (the Go specification defines signed overflow
to wrap), as an integer in `[-2^63, 2^63)`. -/
def wrap64 (x : Int) : Int := (x + 2 ^ 63) % 2 ^ 64 - 2 ^ 63

/-- The iterative `lcm` helper of `ht/variables.go`:

    a, b := m, n
    for a != b {
        if a < b { a += m } else { b += n }
    }
    return a

on Go `int` (64-bit) values: each addition wraps via `wrap64`, and the
loop carries an explicit iteration budget `fuel`, since it does not
terminate for every input (non-positive arguments, or overflow of the
accumulators); `none` means the budget ran out before the loop
finished. -/
def lcmGo (m n : Int) : Nat → Int → Int → Option Int
  | 0, a, b => if a = b then some a else none
  | Nat.succ fuel, a, b =>
    if a = b then some a
    else if a < b then lcmGo m n fuel (wrap64 (a + m)) b
    else lcmGo m n fuel a (wrap64 (b + n))

-- ===========================================================================
-- Theorems
-- ===========================================================================

-- Shared helper lemmas ------------------------------------------------------

theorem statusToNat_inj : ∀ a b : Status, a.toNat = b.toNat → a = b := by decide

theorem statusGt_iff (a b : Status) : statusGt a b = true ↔ b.toNat < a.toNat := by
  simp [statusGt]

theorem wrap64_eq_self (x : Int) (h1 : -(2 ^ 63) ≤ x) (h2 : x < 2 ^ 63) :
    wrap64 x = x := by
  unfold wrap64
  have h3 : (0 : Int) ≤ x + 2 ^ 63 := by linarith
  have h4 : x + 2 ^ 63 < 2 ^ 64 := by
    have h5 : ((2 : Int) ^ 64) = 2 ^ 63 + 2 ^ 63 := by norm_num
    linarith
  rw [Int.emod_eq_of_lt h3 h4]
  ring

theorem lcmGo_loop (m n : Int) (hm : 0 < m) (hn : 0 < n)
    (hfit : (Int.lcm m n : Int) < 2 ^ 63) :
    ∀ (fuel : Nat) (a b : Int), m ∣ a → n ∣ b → 0 < a → 0 < b →
      a ≤ (Int.lcm m n : Int) → b ≤ (Int.lcm m n : Int) →
      ((Int.lcm m n : Int) - a).toNat + ((Int.lcm m n : Int) - b).toNat ≤ fuel →
      lcmGo m n fuel a b = some (Int.lcm m n : Int) := by
  have hneg : -((2 : Int) ^ 63) < 0 := by norm_num
  intro fuel
  induction fuel with
  | zero =>
    intro a b hma hnb ha hb haL hbL hfuel
    have ha' : a = (Int.lcm m n : Int) := by omega
    have hb' : b = (Int.lcm m n : Int) := by omega
    simp [lcmGo, ha', hb']
  | succ fuel ih =>
    intro a b hma hnb ha hb haL hbL hfuel
    by_cases hab : a = b
    · subst hab
      have hdvd : (Int.lcm m n : Int) ∣ a := Int.lcm_dvd hma hnb
      have hge : (Int.lcm m n : Int) ≤ a := Int.le_of_dvd ha hdvd
      have : a = (Int.lcm m n : Int) := le_antisymm haL hge
      simp [lcmGo, this]
    · by_cases hlt : a < b
      · have haltL : a < (Int.lcm m n : Int) := lt_of_lt_of_le hlt hbL
        have hmL : m ∣ (Int.lcm m n : Int) - a :=
          dvd_sub (Int.dvd_lcm_left) hma
        have hmle : m ≤ (Int.lcm m n : Int) - a := Int.le_of_dvd (by omega) hmL
        have hwrap : wrap64 (a + m) = a + m := by
          apply wrap64_eq_self
          · linarith
          · linarith
        have step : lcmGo m n (fuel + 1) a b = lcmGo m n fuel (a + m) b := by
          simp [lcmGo, hab, hlt, hwrap]
        rw [step]
        exact ih (a + m) b (dvd_add hma dvd_rfl) hnb (by omega) hb
          (by omega) hbL (by omega)
      · have hblt : b < a := lt_of_le_of_ne (not_lt.mp hlt) (Ne.symm hab)
        have hbltL : b < (Int.lcm m n : Int) := lt_of_lt_of_le hblt haL
        have hnL : n ∣ (Int.lcm m n : Int) - b :=
          dvd_sub (Int.dvd_lcm_right) hnb
        have hnle : n ≤ (Int.lcm m n : Int) - b := Int.le_of_dvd (by omega) hnL
        have hwrap : wrap64 (b + n) = b + n := by
          apply wrap64_eq_self
          · linarith
          · linarith
        have step : lcmGo m n (fuel + 1) a b = lcmGo m n fuel a (b + n) := by
          simp [lcmGo, hab, hlt, hwrap]
        rw [step]
        exact ih a (b + n) hma (dvd_add hnb dvd_rfl) ha (by omega)
          haL (by omega) (by omega)

theorem lcmGo_overflow_loop :
    ∀ (fuel : Nat) (a : Int),
      a = 2 ^ 62 ∨ a = -(2 ^ 63) ∨ a = -(2 ^ 62) ∨ a = 0 →
      lcmGo (2 ^ 62) (2 ^ 62 + 1) fuel a (2 ^ 62 + 1) = none := by
  intro fuel
  induction fuel with
  | zero =>
    intro a ha
    rcases ha with rfl | rfl | rfl | rfl <;> decide
  | succ fuel ih =>
    intro a ha
    rcases ha with rfl | rfl | rfl | rfl
    · have step : lcmGo (2 ^ 62) (2 ^ 62 + 1) (fuel + 1) (2 ^ 62) (2 ^ 62 + 1) =
          lcmGo (2 ^ 62) (2 ^ 62 + 1) fuel (wrap64 (2 ^ 62 + 2 ^ 62))
            (2 ^ 62 + 1) := by
        simp only [lcmGo]
        rw [if_neg (by norm_num), if_pos (by norm_num)]
      rw [step, show wrap64 (2 ^ 62 + 2 ^ 62) = -(2 ^ 63) from by decide]
      exact ih _ (Or.inr (Or.inl rfl))
    · have step : lcmGo (2 ^ 62) (2 ^ 62 + 1) (fuel + 1) (-(2 ^ 63))
          (2 ^ 62 + 1) =
          lcmGo (2 ^ 62) (2 ^ 62 + 1) fuel (wrap64 (-(2 ^ 63) + 2 ^ 62))
            (2 ^ 62 + 1) := by
        simp only [lcmGo]
        rw [if_neg (by norm_num), if_pos (by norm_num)]
      rw [step, show wrap64 (-(2 ^ 63) + 2 ^ 62) = -(2 ^ 62) from by decide]
      exact ih _ (Or.inr (Or.inr (Or.inl rfl)))
    · have step : lcmGo (2 ^ 62) (2 ^ 62 + 1) (fuel + 1) (-(2 ^ 62))
          (2 ^ 62 + 1) =
          lcmGo (2 ^ 62) (2 ^ 62 + 1) fuel (wrap64 (-(2 ^ 62) + 2 ^ 62))
            (2 ^ 62 + 1) := by
        simp only [lcmGo]
        rw [if_neg (by norm_num), if_pos (by norm_num)]
      rw [step, show wrap64 (-(2 ^ 62) + 2 ^ 62) = 0 from by decide]
      exact ih _ (Or.inr (Or.inr (Or.inr rfl)))
    · have step : lcmGo (2 ^ 62) (2 ^ 62 + 1) (fuel + 1) 0 (2 ^ 62 + 1) =
          lcmGo (2 ^ 62) (2 ^ 62 + 1) fuel (wrap64 (0 + 2 ^ 62))
            (2 ^ 62 + 1) := by
        simp only [lcmGo]
        rw [if_neg (by norm_num), if_pos (by norm_num)]
      rw [step, show wrap64 (0 + 2 ^ 62) = 2 ^ 62 from by decide]
      exact ih _ (Or.inl rfl)

/-- C10 counterexample: at `m = 2^62`, `n = 2^62 + 1` — both within the
claimed precondition `m, n ≥ 1`, and both representable Go `int` values —
the loop never terminates: on the very first iteration `a += m`
overflows (`wrap64 (2^62 + 2^62) = -2^63`), after which `a` cycles
through `-2^63, -2^62, 0, 2^62` forever while `b` stays `2^62 + 1`, so
no iteration budget whatsoever makes the loop finish, refuting
termination (and with it the returned value) inside the precondition. -/
theorem lcm_overflow_cex :
    (1 : Int) ≤ 2 ^ 62 ∧ (1 : Int) ≤ 2 ^ 62 + 1 ∧
    wrap64 (2 ^ 62 + 2 ^ 62) = -(2 ^ 63) ∧
    ∀ fuel : Nat,
      lcmGo (2 ^ 62) (2 ^ 62 + 1) fuel (2 ^ 62) (2 ^ 62 + 1) = none :=
  ⟨by norm_num, by norm_num, by decide,
    fun fuel => lcmGo_overflow_loop fuel _ (Or.inl rfl)⟩

/-- C10 (amended): for integers `m, n ≥ 1` whose least common multiple is
representable as a Go `int` (`lcm(m, n) < 2^63`), the iterative helper
`lcm` of `ht/variables.go` terminates — any iteration budget of at least
`2 * lcm(m, n)` reaches the loop's fixed point, and no addition
overflows along the way — and returns the least common multiple of `m`
and `n`.  Without that bound the claim fails: see `lcm_overflow_cex`. -/
theorem lcm_terminates_and_is_lcm (m n : Int) (hm : 1 ≤ m) (hn : 1 ≤ n)
    (hfit : (Int.lcm m n : Int) < 2 ^ 63)
    (fuel : Nat) (hfuel : 2 * Int.lcm m n ≤ fuel) :
    lcmGo m n fuel m n = some (Int.lcm m n : Int) := by
  have hm' : 0 < m := hm
  have hn' : 0 < n := hn
  have hL : 0 < Int.lcm m n := by
    have := Int.natAbs_pos.mpr (by omega : m ≠ 0)
    have := Int.natAbs_pos.mpr (by omega : n ≠ 0)
    exact Nat.lcm_pos ‹0 < m.natAbs› ‹0 < n.natAbs›
  have hLI : (0 : Int) < (Int.lcm m n : Int) := by exact_mod_cast hL
  have hmL : m ≤ (Int.lcm m n : Int) :=
    Int.le_of_dvd hLI (Int.dvd_lcm_left)
  have hnL : n ≤ (Int.lcm m n : Int) :=
    Int.le_of_dvd hLI (Int.dvd_lcm_right)
  exact lcmGo_loop m n hm' hn' hfit fuel m n dvd_rfl dvd_rfl hm' hn' hmL hnL
    (by omega)

/-- Witness for C10 (amended) at `m = 4`, `n = 6`, budget 24. -/
theorem lcm_terminates_and_is_lcm_witness :
    (1 : Int) ≤ 4 ∧ (1 : Int) ≤ 6 ∧ ((Int.lcm 4 6 : Nat) : Int) < 2 ^ 63 ∧
      2 * Int.lcm 4 6 ≤ 24 ∧ lcmGo 4 6 24 4 6 = some 12 := by
  refine ⟨by norm_num, by norm_num, by decide, by decide, ?_⟩
  have h := lcm_terminates_and_is_lcm 4 6 (by norm_num) (by norm_num)
    (by decide) 24 (by decide)
  simpa using h

theorem goStartsWith_iff : ∀ (s p : List Char),
    goStartsWith s p = true ↔ ∃ t, s = p ++ t := by
  intro s p
  induction p generalizing s with
  | nil => simp [goStartsWith]
  | cons d p ih =>
    cases s with
    | nil => simp [goStartsWith]
    | cons c s =>
      simp only [goStartsWith, Bool.and_eq_true, decide_eq_true_eq, ih,
        List.cons_append, List.cons.injEq]
      constructor
      · rintro ⟨rfl, t, rfl⟩
        exact ⟨t, rfl, rfl⟩
      · rintro ⟨t, rfl, rfl⟩
        exact ⟨rfl, t, rfl⟩

theorem goContains_iff : ∀ (s sub : List Char),
    goContains s sub = true ↔ ∃ pre post, s = pre ++ sub ++ post := by
  intro s sub
  induction s with
  | nil =>
    cases sub with
    | nil => exact ⟨fun _ => ⟨[], [], rfl⟩, fun _ => by decide⟩
    | cons e su =>
      constructor
      · intro h
        simp [goContains, goIndex, goStartsWith] at h
      · rintro ⟨pre, post, h⟩
        rcases List.append_eq_nil.mp h.symm with ⟨h1, -⟩
        rcases List.append_eq_nil.mp h1 with ⟨-, h2⟩
        cases h2
  | cons c t ih =>
    by_cases hsw : goStartsWith (c :: t) sub = true
    · obtain ⟨r, hr⟩ := (goStartsWith_iff (c :: t) sub).mp hsw
      constructor
      · intro _
        exact ⟨[], r, by simpa using hr⟩
      · intro _
        simp [goContains, goIndex, hsw]
    · have hunf : goContains (c :: t) sub = goContains t sub := by
        simp only [goContains, goIndex, hsw, Bool.false_eq_true, if_false]
        cases goIndex t sub <;> simp
      rw [hunf, ih]
      constructor
      · rintro ⟨pre, post, rfl⟩
        exact ⟨c :: pre, post, rfl⟩
      · rintro ⟨pre, post, h⟩
        cases pre with
        | nil =>
          exact absurd ((goStartsWith_iff (c :: t) sub).mpr
            ⟨post, by simpa using h⟩) hsw
        | cons x pre =>
          rcases List.cons.injEq .. ▸ h with ⟨rfl, h2⟩
          exact ⟨pre, post, by simpa using h2⟩

/-- C5 counterexample: a `Condition` with a non-empty `Contains`,
`Count = 0` and a subject containing the text, where `Fullfilled` is
nevertheless non-nil because the (also set) `Prefix` clause fails — so
the claimed "nil iff at least one occurrence" equivalence is false as
stated for arbitrary conditions with non-empty `Contains`. -/
theorem condition_contains_cex :
    Condition.Fullfilled { Prefix := ['x'], Contains := ['a'] } ['a'] ≠ none ∧
    ({ Prefix := ['x'], Contains := ['a'] } : Condition).Contains ≠ [] ∧
    ({ Prefix := ['x'], Contains := ['a'] } : Condition).Count = 0 ∧
    goContains ['a'] ['a'] = true := by decide

/-- C5 (amended): for a `Condition` whose only set clause is a non-empty
`Contains` (no Prefix/Suffix, `Min = Max = 0`, no Regexp), `Fullfilled`
returns nil iff: at least one occurrence for `Count = 0`; no occurrence
for `Count < 0`; and exactly `Count` non-overlapping occurrences (as
counted by `strings.Count`) for `Count > 0`. -/
theorem condition_contains_count_semantics (c : Condition) (s : List Char)
    (hc : c.Contains ≠ []) (hp : c.Prefix = []) (hs : c.Suffix = [])
    (hmin : c.Min = 0) (hmax : c.Max = 0) :
    (c.Count = 0 →
      (c.Fullfilled s = none ↔ ∃ pre post, s = pre ++ c.Contains ++ post)) ∧
    (c.Count < 0 →
      (c.Fullfilled s = none ↔ ¬∃ pre post, s = pre ++ c.Contains ++ post)) ∧
    (0 < c.Count →
      (c.Fullfilled s = none ↔ (goCount s c.Contains : Int) = c.Count)) := by
  refine ⟨?_, ?_, ?_⟩ <;> intro hcount
  · have hneg : ¬c.Count < 0 := by omega
    have hpos : ¬0 < c.Count := by omega
    rw [← goContains_iff]
    by_cases hg : goContains s c.Contains = true
    · simp [Condition.Fullfilled, hp, hs, hmin, hmax, hc, hcount, hneg, hpos, hg]
    · simp [Condition.Fullfilled, hp, hs, hmin, hmax, hc, hcount, hneg, hpos, hg]
  · have h0 : ¬c.Count = 0 := by omega
    have hpos : ¬0 < c.Count := by omega
    rw [← goContains_iff]
    by_cases hg : goContains s c.Contains = true
    · simp [Condition.Fullfilled, hp, hs, hmin, hmax, hc, hcount, h0, hpos, hg]
    · simp [Condition.Fullfilled, hp, hs, hmin, hmax, hc, hcount, h0, hpos, hg]
  · have h0 : ¬c.Count = 0 := by omega
    have hneg : ¬c.Count < 0 := by omega
    by_cases hcnt : (goCount s c.Contains : Int) = c.Count
    · simp [Condition.Fullfilled, hp, hs, hmin, hmax, hc, hcount, h0, hneg, hcnt]
    · simp [Condition.Fullfilled, hp, hs, hmin, hmax, hc, hcount, h0, hneg, hcnt]

/-- Witness for C5 (amended) at `Contains = "oo"`, `Count = 0`,
subject `"foo"`. -/
theorem condition_contains_count_semantics_witness :
    Condition.Fullfilled { Contains := ['o', 'o'] } "foo".toList = none ↔
      ∃ pre post, "foo".toList = pre ++ ['o', 'o'] ++ post :=
  (condition_contains_count_semantics { Contains := ['o', 'o'] } "foo".toList
    (by decide) rfl rfl rfl rfl).1 rfl

/-- C6: the `{{NOW ± N unit}}` offsets of `setNowVariable`.  Units
`s`, `m`, `h` give 1, 60 and 3600 seconds as the claim states, and the
`{{NOW + 2h}}` example at now = 2020-01-01T00:00:00Z (Unix 1577836800)
formats to the claimed RFC1123 string; but the `d` unit multiplies by
`24 * 26 * 60 = 37440` seconds (10h24m) instead of one day = 86400
seconds — the factor `26` is a typo for `60` in `ht/variables.go`. -/
theorem now_day_unit_bug :
    nowOffsetSeconds false 1 's' = some 1 ∧
    nowOffsetSeconds false 1 'm' = some 60 ∧
    nowOffsetSeconds false 1 'h' = some 3600 ∧
    nowOffsetSeconds false 1 'd' = some 37440 ∧ (37440 : Int) ≠ 86400 ∧
    setNowValue 1577836800 false 2 'h' =
      some ("Wed, 01 Jan 2020 02:00:00 UTC").toList := by decide

/-- C7: the condition verdict of `XML.Execute` is discarded.  When the
body reads fine, the document parses and the XPath-addressed element is
present, `Execute` returns nil no matter what the embedded Condition
says — at the concrete failing input the element value is `"foo"`, the
Condition requires `"bar"` (and indeed rejects `"foo"`), yet the check
passes.  The last conjunct shows this for every element value and every
Condition. -/
theorem xml_condition_verdict_discarded :
    xmlExecute false true (some ("foo").toList)
      { Contains := ("bar").toList } = none ∧
    Condition.Fullfilled { Contains := ("bar").toList } ("foo").toList =
      some .missingText ∧
    (∀ (s : List Char) (c : Condition), xmlExecute false true (some s) c = none) := by
  refine ⟨by decide, by decide, fun s c => rfl⟩

/-- C8: `UTF8Encoded.Execute` flags a well-formed encoding of U+FFFD.
The body `EF BF BD` is valid UTF-8 (a single 3-byte rune, as the second
conjunct shows) and contains no BOM, yet the check reports
"Invalid UTF-8 at character 0" because the code compares the decoded
rune against `utf8.RuneError` without checking the width.  The remaining
conjuncts confirm the intended behaviour elsewhere: BOM at character 0
rejected, a truly invalid byte reported at the right character offset,
and a valid body (`"a"` + euro sign) accepted. -/
theorem utf8_replacement_rune_bug :
    utf8Execute [0xEF, 0xBF, 0xBD] = some (.invalid 0) ∧
    decodeRune [0xEF, 0xBF, 0xBD] = (0xFFFD, 3) ∧
    utf8Execute [0xEF, 0xBB, 0xBF] = some (.bom 0) ∧
    utf8Execute [0x61, 0xFF] = some (.invalid 1) ∧
    utf8Execute [0x61, 0xE2, 0x82, 0xAC] = none := by decide

theorem utf8Loop_fuel : ∀ (f g : Nat) (p : List Nat) (char : Nat),
    p.length ≤ f → p.length ≤ g → utf8Loop f p char = utf8Loop g p char := by
  intro f
  induction f with
  | zero =>
    intro g p char hf hg
    cases p with
    | nil => cases g <;> rfl
    | cons b rest => simp at hf
  | succ f ih =>
    intro g p char hf hg
    cases p with
    | nil => cases g <;> rfl
    | cons b rest =>
      cases g with
      | zero => simp at hg
      | succ g =>
        simp only [utf8Loop]
        by_cases h1 : (decodeRune (b :: rest)).1 = 0xFFFD
        · simp [h1]
        · by_cases h2 : (decodeRune (b :: rest)).1 = 0xFEFF
          · simp [h1, h2]
          · simp only [h1, h2, if_false]
            apply ih
            · have := List.length_drop ((decodeRune (b :: rest)).2 - 1) rest
              simp only [List.length_cons] at hf
              omega
            · have := List.length_drop ((decodeRune (b :: rest)).2 - 1) rest
              simp only [List.length_cons] at hg
              omega

/-- C3: during `Suite.Iterate`, extraction results reach the suite's
global scope exactly for the tests whose final status is `Pass`: the
scope after iterating equals the fold of the extractions of the passing
tests only, and an individual test with any other status leaves the
scope unchanged. -/
theorem iterate_globals_pass_only (tests : List TestOutcome)
    (g : List (List Char × List Char)) (t : TestOutcome)
    (h : t.status ≠ Status.pass) :
    iterateGlobals tests g =
      (tests.filter fun x => decide (x.status = Status.pass)).foldl
        (fun a x => applyExtraction a x.extraction) g ∧
    iterateStep g t = g := by
  constructor
  · induction tests generalizing g with
    | nil => rfl
    | cons x xs ih =>
      have hg : iterateGlobals (x :: xs) g = iterateGlobals xs (iterateStep g x) :=
        rfl
      by_cases hx : x.status = Status.pass
      · have hstep : iterateStep g x = applyExtraction g x.extraction := by
          simp [iterateStep, updateVariables, hx]
        rw [hg, hstep, ih]
        simp [List.filter_cons, hx]
      · have hstep : iterateStep g x = g := by
          simp [iterateStep, hx]
        rw [hg, hstep, ih]
        simp [List.filter_cons, hx]
  · simp [iterateStep, h]

/-- Witness for C3: one failing test with a pending extraction writes
nothing. -/
theorem iterate_globals_pass_only_witness :
    iterateGlobals [⟨Status.fail, [(['a'], ['1'])]⟩] [] =
      (([⟨Status.fail, [(['a'], ['1'])]⟩] : List TestOutcome).filter fun x =>
        decide (x.status = Status.pass)).foldl
        (fun a x => applyExtraction a x.extraction) [] ∧
    iterateStep [] ⟨Status.fail, [(['a'], ['1'])]⟩ = [] :=
  iterate_globals_pass_only [⟨Status.fail, [(['a'], ['1'])]⟩] []
    ⟨Status.fail, [(['a'], ['1'])]⟩ (by decide)

theorem executeLoop_append (ns nm : Nat) : ∀ (xs ys : List RawTestElem) (k : Nat) (sf : Bool),
    executeLoop ns nm (xs ++ ys) k sf =
      ((executeLoop ns nm xs k sf).1 ++
        (executeLoop ns nm ys (k + xs.length) (executeLoop ns nm xs k sf).2).1,
       (executeLoop ns nm ys (k + xs.length) (executeLoop ns nm xs k sf).2).2) := by
  intro xs
  induction xs with
  | nil =>
    intro ys k sf
    simp [executeLoop]
  | cons x xs ih =>
    intro ys k sf
    have hk : k + 1 + xs.length = k + (xs.length + 1) := by omega
    simp only [List.cons_append, executeLoop, List.length_cons]
    rw [show xs.append ys = xs ++ ys from rfl, ih, hk]

theorem executeLoop_length (ns nm : Nat) : ∀ (es : List RawTestElem) (k : Nat) (sf : Bool),
    (executeLoop ns nm es k sf).1.length = es.length := by
  intro es
  induction es with
  | nil => intro k sf; rfl
  | cons e es ih => intro k sf; simp [executeLoop, ih]

/-- C2: the overall status computed by `RawSuite.Execute` is the
`statusMax` fold over the statuses the Setup and Main tests receive
(computable from the Setup and Main elements alone), and it does not
depend on the Teardown elements at all; in particular the spec's
boundary example — setup Pass/Pass/Fail, two main elements, teardown
Pass/Fail — yields overall status `Fail` although a teardown test fails. -/
theorem suite_status_ignores_teardown (se ma td td' : List RawTestElem) :
    RawSuiteModel.executeStatus ⟨se, ma, td⟩ =
      statusMaxList (executeLoop se.length ma.length (se ++ ma) 0 false).1 ∧
    RawSuiteModel.executeStatus ⟨se, ma, td⟩ =
      RawSuiteModel.executeStatus ⟨se, ma, td'⟩ ∧
    RawSuiteModel.executeStatus
        { Setup := [{}, {}, { runStatus := .fail }], Main := [{}, {}],
          Teardown := [{}, { runStatus := .fail }] } = .fail := by
  have key : ∀ td₀ : List RawTestElem,
      RawSuiteModel.executeStatus ⟨se, ma, td₀⟩ =
        statusMaxList (executeLoop se.length ma.length (se ++ ma) 0 false).1 := by
    intro td₀
    dsimp only [RawSuiteModel.executeStatus, RawSuiteModel.executeStatuses,
      RawSuiteModel.tests]
    rw [executeLoop_append]
    have hlen : ((se ++ ma) ++ td₀).length - td₀.length = (se ++ ma).length := by
      simp only [List.length_append]
      omega
    rw [hlen]
    have htake :
        ((executeLoop se.length ma.length (se ++ ma) 0 false).1 ++
          (executeLoop se.length ma.length td₀ (0 + (se ++ ma).length)
            (executeLoop se.length ma.length (se ++ ma) 0 false).2).1).take
          (se ++ ma).length =
        (executeLoop se.length ma.length (se ++ ma) 0 false).1 := by
      rw [show (se ++ ma).length =
          (executeLoop se.length ma.length (se ++ ma) 0 false).1.length from
        (executeLoop_length se.length ma.length (se ++ ma) 0 false).symm]
      exact List.take_left _ _
    rw [htake]
  exact ⟨key td, (key td).trans (key td').symm, by decide⟩

theorem executorStep_sf_true (ns nm k : Nat) (e : RawTestElem) :
    (executorStep ns nm k true e).2 = true := by
  unfold executorStep
  split
  · rfl
  · simp

theorem executeLoop_sf_true (ns nm : Nat) :
    ∀ (es : List RawTestElem) (k d : Nat), d < es.length →
      (k + d < ns + nm →
        (executeLoop ns nm es k true).1.getD d .notRun = .skipped) ∧
      (ns + nm ≤ k + d →
        (executeLoop ns nm es k true).1.getD d .notRun =
          soloStatus (es.getD d {})) := by
  intro es
  induction es with
  | nil =>
    intro k d hd
    simp at hd
  | cons e ts ih =>
    intro k d hd
    have hsf : (executorStep ns nm k true e).2 = true := executorStep_sf_true ns nm k e
    cases d with
    | zero =>
      have h0 : (executeLoop ns nm (e :: ts) k true).1.getD 0 .notRun =
          (executorStep ns nm k true e).1 := rfl
      constructor
      · intro hrange
        rw [h0]
        have hk : k < ns + nm := by omega
        simp [executorStep, hk]
      · intro hrange
        rw [h0]
        have hk : ¬k < ns + nm := by omega
        by_cases hen : e.enabled = false
        · simp [executorStep, soloStatus, hen, hk]
        · simp [executorStep, soloStatus, hen, hk]
    | succ d =>
      have htail : (executeLoop ns nm (e :: ts) k true).1.getD (d + 1) .notRun =
          (executeLoop ns nm ts (k + 1) true).1.getD d .notRun := by
        have h0 : (executeLoop ns nm (e :: ts) k true).1 =
            (executorStep ns nm k true e).1 ::
              (executeLoop ns nm ts (k + 1) (executorStep ns nm k true e).2).1 := rfl
        rw [h0, hsf]
        simp [List.getD_cons_succ]
      have hlen : d < ts.length := by simpa using hd
      have hrec := ih (k + 1) d hlen
      constructor
      · intro hrange
        rw [htail]
        exact hrec.1 (by omega)
      · intro hrange
        rw [htail]
        rw [hrec.2 (by omega)]
        simp [List.getD_cons_succ]

theorem executeLoop_setup_failure (ns nm : Nat) :
    ∀ (es : List RawTestElem) (k : Nat) (sf : Bool) (j : Nat),
      j < es.length → k + j < ns →
      statusGt ((executeLoop ns nm es k sf).1.getD j .notRun) .pass = true →
      ∀ d, j < d → d < es.length →
        (k + d < ns + nm →
          (executeLoop ns nm es k sf).1.getD d .notRun = .skipped) ∧
        (ns + nm ≤ k + d →
          (executeLoop ns nm es k sf).1.getD d .notRun =
            soloStatus (es.getD d {})) := by
  intro es
  induction es with
  | nil =>
    intro k sf j hj
    simp at hj
  | cons e ts ih =>
    intro k sf j hj hk hfail d hd hdlen
    have hcons : (executeLoop ns nm (e :: ts) k sf).1 =
        (executorStep ns nm k sf e).1 ::
          (executeLoop ns nm ts (k + 1) (executorStep ns nm k sf e).2).1 := rfl
    cases j with
    | zero =>
      -- The failing element is the head: the step cannot have taken the
      -- skip branch (Skipped is not above Pass), so the flag comes out true.
      have hhead : statusGt (executorStep ns nm k sf e).1 .pass = true := by
        rw [hcons] at hfail
        simpa using hfail
      have hsf2 : (executorStep ns nm k sf e).2 = true := by
        unfold executorStep at hhead ⊢
        by_cases hcnd : e.enabled = false ∨ (sf = true ∧ k < ns + nm)
        · rw [if_pos hcnd] at hhead
          simp [statusGt, Status.toNat] at hhead
        · rw [if_neg hcnd] at hhead ⊢
          have hk' : k < ns := by omega
          simp only at hhead ⊢
          rw [hhead]
          simp [hk']
      cases d with
      | zero => omega
      | succ d =>
        have hgetD : (executeLoop ns nm (e :: ts) k sf).1.getD (d + 1) .notRun =
            (executeLoop ns nm ts (k + 1) true).1.getD d .notRun := by
          rw [hcons, hsf2]
          simp [List.getD_cons_succ]
        have hdl : d < ts.length := by simpa using hdlen
        have hrec := executeLoop_sf_true ns nm ts (k + 1) d hdl
        refine ⟨fun hr => ?_, fun hr => ?_⟩
        · rw [hgetD]
          exact hrec.1 (by omega)
        · rw [hgetD]
          rw [hrec.2 (by omega)]
          simp [List.getD_cons_succ]
    | succ j =>
      have hjl : j < ts.length := by simpa using hj
      have hfail' : statusGt
          ((executeLoop ns nm ts (k + 1) (executorStep ns nm k sf e).2).1.getD j
            .notRun) .pass = true := by
        rw [hcons] at hfail
        simpa using hfail
      cases d with
      | zero => omega
      | succ d =>
        have hdl : d < ts.length := by simpa using hdlen
        have hrec := ih (k + 1) (executorStep ns nm k sf e).2 j hjl (by omega)
          hfail' d (by omega) hdl
        refine ⟨fun hr => ?_, fun hr => ?_⟩
        · rw [hcons]
          simp only [List.getD_cons_succ]
          exact hrec.1 (by omega)
        · rw [hcons]
          simp only [List.getD_cons_succ]
          rw [hrec.2 (by omega)]

/-- C1 counterexample: the first (and only) Setup element is disabled, so
it finishes with status `Skipped` — a status other than `Pass` — yet the
Main element is executed normally and ends with status `Pass`, not
`Skipped`: only a Setup result strictly above `Pass` (Fail/Error/Bogus)
sets the `setupfailures` flag in `RawSuite.Execute`. -/
theorem setup_skipped_does_not_skip_main_cex :
    RawSuiteModel.executeStatuses
        { Setup := [{ enabled := false }], Main := [{}] } =
      [.skipped, .pass] ∧
    Status.skipped ≠ Status.pass := by decide

/-- C1 (amended): if a Setup element finishes with a status strictly
greater than `Pass` (Fail, Error or Bogus — not merely "other than
Pass": a disabled Setup element's `Skipped` does not count), then every
later Setup element and every Main element is given status `Skipped`
without being executed, while every Teardown element still gets exactly
the status it would get on its own (its `Run()` outcome when enabled and
not bogus; an individually disabled Teardown element is itself skipped,
and a bogus one keeps `Bogus`, without running, exactly as without the
setup failure). -/
theorem setup_failure_skips_main_not_teardown (rs : RawSuiteModel) (j : Nat)
    (hj : j < rs.Setup.length)
    (hfail : statusGt (rs.executeStatuses.getD j .notRun) .pass = true) :
    (∀ k, j < k → k < rs.Setup.length + rs.Main.length →
      rs.executeStatuses.getD k .notRun = .skipped) ∧
    (∀ k, rs.Setup.length + rs.Main.length ≤ k → k < rs.tests.length →
      rs.executeStatuses.getD k .notRun = soloStatus (rs.tests.getD k {})) := by
  have hlen : rs.tests.length =
      rs.Setup.length + rs.Main.length + rs.Teardown.length := by
    simp [RawSuiteModel.tests]
    omega
  have hj' : j < rs.tests.length := by omega
  have main := executeLoop_setup_failure rs.Setup.length rs.Main.length
    rs.tests 0 false j hj' (by omega) hfail
  constructor
  · intro k hk1 hk2
    exact (main k hk1 (by omega)).1 (by omega)
  · intro k hk1 hk2
    exact (main k (by omega) (by omega)).2 (by omega)

/-- Witness for C1 (amended): in a suite with Setup = Fail/Pass, one
Main element and one erroring Teardown element, the failing first Setup
element makes the second Setup and the Main element `Skipped` while the
Teardown element still runs to its own `Error`. -/
theorem setup_failure_skips_main_not_teardown_witness :
    (RawSuiteModel.executeStatuses
        { Setup := [{ runStatus := .fail }, {}], Main := [{}],
          Teardown := [{ runStatus := .error }] }).getD 1 .notRun =
      .skipped ∧
    (RawSuiteModel.executeStatuses
        { Setup := [{ runStatus := .fail }, {}], Main := [{}],
          Teardown := [{ runStatus := .error }] }).getD 3 .notRun =
      soloStatus ({ runStatus := .error }) := by
  have h := setup_failure_skips_main_not_teardown
    { Setup := [{ runStatus := .fail }, {}], Main := [{}],
      Teardown := [{ runStatus := .error }] } 0 (by decide) (by decide)
  refine ⟨h.1 1 (by decide) (by decide), ?_⟩
  have h2 := h.2 3 (by decide) (by decide)
  simpa using h2

theorem statusMax_of_not_gt : ∀ t x : Status, statusGt x t = false → statusMax t x = t := by
  decide

theorem statusGt_statusMax : ∀ t x u : Status,
    statusGt (statusMax t x) u = (statusGt t u || statusGt x u) := by
  decide

theorem statusMax_error_idem : ∀ s : Status,
    statusMax (statusMax s .error) .error = statusMax s .error := by
  decide

theorem ne_of_statusGt : ∀ a b : Status, statusGt a b = true → a ≠ b := by
  decide

theorem statusGt_statusMax_error_pass : ∀ s : Status,
    statusGt (statusMax s .error) .pass = true := by
  decide

theorem statusMaxFold_id : ∀ (l : List Status) (t : Status),
    (∀ x ∈ l, statusGt x t = false) → l.foldl statusMax t = t := by
  intro l
  induction l with
  | nil => intro t _; rfl
  | cons x l ih =>
    intro t h
    have hx : statusMax t x = t :=
      statusMax_of_not_gt t x (h x (List.mem_cons_self x l))
    simp only [List.foldl_cons, hx]
    exact ih t fun y hy => h y (List.mem_cons_of_mem x hy)

theorem statusMaxFold_gt : ∀ (l : List Status) (t u : Status),
    statusGt (l.foldl statusMax t) u =
      (statusGt t u || l.any fun x => statusGt x u) := by
  intro l
  induction l with
  | nil => intro t u; simp
  | cons x l ih =>
    intro t u
    simp only [List.foldl_cons, ih, List.any_cons, statusGt_statusMax,
      Bool.or_assoc]

theorem analyse_fold : ∀ (reports : List MockReport) (t s : Status)
    (ac : List (List Char)),
    reports.foldl analyseStep (t, s, ac) =
      (reports.foldl (fun x mt => statusMax x mt.status) t,
       reports.foldl (fun x mt => statusMax x mt.status) s,
       ac ++ reports.filterMap mockReportKey) := by
  intro reports
  induction reports with
  | nil => intro t s ac; simp
  | cons mt ts ih =>
    intro t s ac
    simp only [List.foldl_cons, List.filterMap_cons, analyseStep]
    cases hk : mockReportKey mt with
    | none => rw [ih]
    | some k =>
      rw [ih]
      simp

theorem missingMockFold_eq : ∀ (n : Nat) (actual : List (List Char)) (sub : Status),
    missingMockFold actual n sub =
      if ∃ i, i < n ∧ mockLabel i ∉ actual then statusMax sub .error else sub := by
  intro n
  induction n with
  | zero =>
    intro actual sub
    simp [missingMockFold]
  | succ n ih =>
    intro actual sub
    have hstep : missingMockFold actual (n + 1) sub =
        (if mockLabel n ∈ actual then missingMockFold actual n sub
         else statusMax (missingMockFold actual n sub) .error) := by
      unfold missingMockFold
      rw [List.range_succ, List.foldl_append]
      simp only [List.foldl_cons, List.foldl_nil]
    rw [hstep, ih]
    by_cases hex : ∃ i, i < n ∧ mockLabel i ∉ actual
    · have hex' : ∃ i, i < n + 1 ∧ mockLabel i ∉ actual := by
        obtain ⟨i, hi, hm⟩ := hex
        exact ⟨i, by omega, hm⟩
      by_cases hmem : mockLabel n ∈ actual
      · simp [hmem, hex, hex']
      · simp [hmem, hex, hex', statusMax_error_idem]
    · by_cases hmem : mockLabel n ∈ actual
      · have hex' : ¬∃ i, i < n + 1 ∧ mockLabel i ∉ actual := by
          rintro ⟨i, hi, hm⟩
          rcases Nat.lt_succ_iff_lt_or_eq.mp hi with h | rfl
          · exact hex ⟨i, h, hm⟩
          · exact hm hmem
        simp [hmem, hex, hex']
      · have hex' : ∃ i, i < n + 1 ∧ mockLabel i ∉ actual :=
          ⟨n, by omega, hmem⟩
        simp [hmem, hex, hex']

/-- C4 counterexample: the test's direct checks passed, its single
declared mock was invoked and reported status `Error` — a non-Pass
outcome in the mock sub-suite — but the final test status is `Error`,
not `Fail`: statuses above `Pass` found in the monitor reports are
propagated into the test verbatim before the Pass-to-Fail downgrade is
considered, so the claimed "downgraded to Fail iff any non-Pass outcome"
equivalence is false. -/
theorem analyse_mocks_error_not_fail_cex :
    analyseMocks .pass [⟨("Mock 0: M").toList, .error⟩] 1 = (.error, .error) ∧
    Status.error ≠ Status.fail ∧
    statusGt Status.error Status.pass = true := by decide

/-- C4 (amended): for a test whose direct checks passed, mock
reconciliation leaves the status at the maximum of `Pass` and all
recorded mock outcomes — so a recorded `Fail` gives `Fail`, a recorded
`Error` gives `Error`, and stray-call reports (which carry the zero
status `NotRun`) change nothing — except that when that maximum is still
`Pass` and some declared mock was never invoked, the status becomes
`Fail`.  In particular the final status is exactly `Pass` iff no
recorded outcome is above `Pass` and every declared mock was invoked. -/
theorem analyse_mocks_pass_characterisation (reports : List MockReport) (n : Nat) :
    ((analyseMocks .pass reports n).1 =
      if (∀ mt ∈ reports, statusGt mt.status .pass = false) ∧
          (∃ i, i < n ∧ mockLabel i ∉ reports.filterMap mockReportKey)
        then .fail
        else reports.foldl (fun x mt => statusMax x mt.status) .pass) ∧
    ((analyseMocks .pass reports n).1 = .pass ↔
      (∀ mt ∈ reports, statusGt mt.status .pass = false) ∧
        ∀ i, i < n → mockLabel i ∈ reports.filterMap mockReportKey) := by
  have hfold := analyse_fold reports .pass .notRun []
  have hunf : (analyseMocks .pass reports n).1 =
      (if statusGt
            (missingMockFold (reports.filterMap mockReportKey) n
              (reports.foldl (fun x mt => statusMax x mt.status) .notRun))
            .pass = true ∧
          reports.foldl (fun x mt => statusMax x mt.status) .pass = .pass
        then Status.fail
        else reports.foldl (fun x mt => statusMax x mt.status) .pass) := by
    unfold analyseMocks
    rw [hfold]
    simp only [List.nil_append]
  rw [hunf, missingMockFold_eq]
  set T := reports.foldl (fun x mt => statusMax x mt.status) Status.pass with hT
  set S0 := reports.foldl (fun x mt => statusMax x mt.status) Status.notRun with hS0
  by_cases hall : ∀ mt ∈ reports, statusGt mt.status .pass = false
  · have ht' : T = .pass := by
      rw [hT, ← List.foldl_map]
      refine statusMaxFold_id _ _ ?_
      intro x hx
      rcases List.mem_map.mp hx with ⟨mt, hmt, rfl⟩
      exact hall mt hmt
    have hsub0 : statusGt S0 .pass = false := by
      rw [hS0, ← List.foldl_map, statusMaxFold_gt]
      simp only [Bool.or_eq_false_iff]
      refine ⟨by decide, ?_⟩
      rw [List.any_eq_false]
      intro x hx
      rcases List.mem_map.mp hx with ⟨mt, hmt, rfl⟩
      simp [hall mt hmt]
    by_cases hex : ∃ i, i < n ∧ mockLabel i ∉ reports.filterMap mockReportKey
    · rw [if_pos hex, if_pos ⟨statusGt_statusMax_error_pass _, ht'⟩,
        if_pos ⟨hall, hex⟩]
      refine ⟨rfl, ?_⟩
      constructor
      · intro h
        exact absurd h (by decide)
      · rintro ⟨-, hmk⟩
        obtain ⟨i, hi, hm⟩ := hex
        exact absurd (hmk i hi) hm
    · have hcond : ¬(statusGt S0 .pass = true ∧ T = .pass) := by
        rintro ⟨hgtc, -⟩
        rw [hsub0] at hgtc
        cases hgtc
      have hcond2 : ¬((∀ mt ∈ reports, statusGt mt.status .pass = false) ∧
          ∃ i, i < n ∧ mockLabel i ∉ reports.filterMap mockReportKey) :=
        fun h => hex h.2
      rw [if_neg hex, if_neg hcond, if_neg hcond2]
      refine ⟨rfl, ?_⟩
      rw [ht']
      constructor
      · intro _
        refine ⟨hall, fun i hi => ?_⟩
        by_contra hm
        exact hex ⟨i, hi, hm⟩
      · intro _
        rfl
  · have hgt : statusGt T .pass = true := by
      rw [hT, ← List.foldl_map, statusMaxFold_gt]
      rw [not_forall] at hall
      obtain ⟨mt, hmt⟩ := hall
      rw [Classical.not_imp] at hmt
      have hx : statusGt mt.status .pass = true := by
        cases h : statusGt mt.status .pass
        · exact absurd h hmt.2
        · rfl
      have hany : (reports.map fun mt => mt.status).any
          (fun x => statusGt x .pass) = true := by
        rw [List.any_eq_true]
        exact ⟨mt.status, List.mem_map_of_mem _ hmt.1, hx⟩
      rw [hany]
      simp
    have hne : T ≠ .pass := ne_of_statusGt _ _ hgt
    have hcond : ¬(statusGt
        (if ∃ i, i < n ∧ mockLabel i ∉ reports.filterMap mockReportKey
          then statusMax S0 .error else S0) .pass = true ∧ T = .pass) :=
      fun h => hne h.2
    have hcond2 : ¬((∀ mt ∈ reports, statusGt mt.status .pass = false) ∧
        ∃ i, i < n ∧ mockLabel i ∉ reports.filterMap mockReportKey) :=
      fun h => hall h.1
    rw [if_neg hcond, if_neg hcond2]
    refine ⟨rfl, ?_⟩
    constructor
    · intro h
      exact absurd h hne
    · rintro ⟨h1, -⟩
      exact absurd h1 hall

theorem fsLookup_append_single (fs : List (List Char × List Char))
    (n b nm : List Char) :
    fsLookup (fs ++ [(n, b)]) nm = none ↔ fsLookup fs nm = none ∧ nm ≠ n := by
  induction fs with
  | nil =>
    by_cases h : n = nm
    · subst h
      simp [fsLookup, List.find?]
    · simp [fsLookup, List.find?, h, Ne.symm h]
  | cons p fs ih =>
    by_cases hp : p.1 = nm
    · simp [fsLookup, List.find?, hp]
    · have hl : fsLookup ((p :: fs) ++ [(n, b)]) nm = fsLookup (fs ++ [(n, b)]) nm := by
        simp [fsLookup, List.find?, hp]
      have hr : fsLookup (p :: fs) nm = fsLookup fs nm := by
        simp [fsLookup, List.find?, hp]
      rw [hl, hr, ih]

theorem newFileSystemLoop_ok_iff :
    ∀ (ps : List (List Char)) (i : Nat) (fs : List (List Char × List Char)),
      (∃ r, newFileSystemLoop ps i fs = .ok r) ↔
        ((∀ p ∈ ps, partView p ≠ .malformed) ∧
         ((partEntries ps).map Prod.fst).Nodup ∧
         ∀ nm ∈ (partEntries ps).map Prod.fst, fsLookup fs nm = none) := by
  intro ps
  induction ps with
  | nil =>
    intro i fs
    simp [newFileSystemLoop, partEntries]
  | cons p ps ih =>
    intro i fs
    by_cases hemp : goTrimSpace p = []
    · have hloop : newFileSystemLoop (p :: ps) i fs =
          newFileSystemLoop ps (i + 1) fs := by
        simp [newFileSystemLoop, hemp]
      have hview : partView p = .empty := by simp [partView, hemp]
      have hentries : partEntries (p :: ps) = partEntries ps := by
        simp [partEntries, hview]
      rw [hloop, hentries, ih]
      constructor
      · rintro ⟨h1, h2, h3⟩
        refine ⟨?_, h2, h3⟩
        intro q hq
        rcases List.mem_cons.mp hq with rfl | hq
        · rw [hview]
          intro hc
          cases hc
        · exact h1 q hq
      · rintro ⟨h1, h2, h3⟩
        exact ⟨fun q hq => h1 q (List.mem_cons_of_mem p hq), h2, h3⟩
    · rcases hsp : goSplitN2 (goTrimSpace p) ['\n'] with - | ⟨first, rest⟩
      · have hloop : newFileSystemLoop (p :: ps) i fs =
            .error (.malformedPart (i + 1)) := by
          simp [newFileSystemLoop, hemp, hsp]
        have hview : partView p = .malformed := by simp [partView, hemp, hsp]
        constructor
        · rintro ⟨r, hr⟩
          rw [hloop] at hr
          cases hr
        · rintro ⟨h1, -, -⟩
          exact absurd hview (h1 p (List.mem_cons_self p ps))
      · rcases rest with - | ⟨body, rest2⟩
        · have hloop : newFileSystemLoop (p :: ps) i fs =
              .error (.malformedPart (i + 1)) := by
            simp [newFileSystemLoop, hemp, hsp]
          have hview : partView p = .malformed := by simp [partView, hemp, hsp]
          constructor
          · rintro ⟨r, hr⟩
            rw [hloop] at hr
            cases hr
          · rintro ⟨h1, -, -⟩
            exact absurd hview (h1 p (List.mem_cons_self p ps))
        · rcases rest2 with - | ⟨x, rest3⟩
          · by_cases hname : goTrimSpace first = []
            · have hloop : newFileSystemLoop (p :: ps) i fs =
                  .error (.malformedPart (i + 1)) := by
                simp [newFileSystemLoop, hemp, hsp, hname]
              have hview : partView p = .malformed := by
                simp [partView, hemp, hsp, hname]
              constructor
              · rintro ⟨r, hr⟩
                rw [hloop] at hr
                cases hr
              · rintro ⟨h1, -, -⟩
                exact absurd hview (h1 p (List.mem_cons_self p ps))
            · have hview : partView p = .file (goTrimSpace first) body := by
                simp [partView, hemp, hsp, hname]
              have hent : partEntries (p :: ps) =
                  (goTrimSpace first, body) :: partEntries ps := by
                simp [partEntries, hview]
              by_cases hdup : (fsLookup fs (goTrimSpace first)).isSome = true
              · have hloop : newFileSystemLoop (p :: ps) i fs =
                    .error (.duplicateName (goTrimSpace first)) := by
                  simp [newFileSystemLoop, hemp, hsp, hname, hdup]
                constructor
                · rintro ⟨r, hr⟩
                  rw [hloop] at hr
                  cases hr
                · rintro ⟨-, -, h3⟩
                  have hmem : goTrimSpace first ∈
                      (partEntries (p :: ps)).map Prod.fst := by
                    rw [hent]
                    simp
                  have hnone := h3 _ hmem
                  rw [hnone] at hdup
                  simp at hdup
              · have hloop : newFileSystemLoop (p :: ps) i fs =
                    newFileSystemLoop ps (i + 1)
                      (fs ++ [(goTrimSpace first, body)]) := by
                  simp [newFileSystemLoop, hemp, hsp, hname, hdup]
                have hlk : fsLookup fs (goTrimSpace first) = none := by
                  cases h : fsLookup fs (goTrimSpace first)
                  · rfl
                  · rw [h] at hdup
                    simp at hdup
                rw [hloop, ih, hent]
                constructor
                · rintro ⟨h1, h2, h3⟩
                  refine ⟨?_, ?_, ?_⟩
                  · intro q hq
                    rcases List.mem_cons.mp hq with rfl | hq
                    · rw [hview]
                      intro hc
                      cases hc
                    · exact h1 q hq
                  · rw [List.map_cons, List.nodup_cons]
                    refine ⟨?_, h2⟩
                    intro hmem
                    have := h3 _ hmem
                    rw [fsLookup_append_single] at this
                    exact this.2 rfl
                  · intro nm hmem
                    rw [List.map_cons, List.mem_cons] at hmem
                    rcases hmem with rfl | hmem
                    · exact hlk
                    · exact ((fsLookup_append_single fs _ body nm).mp
                        (h3 nm hmem)).1
                · rintro ⟨h1, h2, h3⟩
                  rw [List.map_cons, List.nodup_cons] at h2
                  refine ⟨?_, h2.2, ?_⟩
                  · intro q hq
                    exact h1 q (List.mem_cons_of_mem p hq)
                  · intro nm hmem
                    rw [fsLookup_append_single]
                    refine ⟨h3 nm ?_, ?_⟩
                    · rw [List.map_cons]
                      exact List.mem_cons_of_mem _ hmem
                    · rintro rfl
                      exact h2.1 hmem
          · have hloop : newFileSystemLoop (p :: ps) i fs =
                .error (.malformedPart (i + 1)) := by
              simp [newFileSystemLoop, hemp, hsp]
            have hview : partView p = .malformed := by
              simp [partView, hemp, hsp]
            constructor
            · rintro ⟨r, hr⟩
              rw [hloop] at hr
              cases hr
            · rintro ⟨h1, -, -⟩
              exact absurd hview (h1 p (List.mem_cons_self p ps))

theorem newFileSystemLoop_ok_val :
    ∀ (ps : List (List Char)) (i : Nat) (fs r : List (List Char × List Char)),
      newFileSystemLoop ps i fs = .ok r → r = fs ++ partEntries ps := by
  intro ps
  induction ps with
  | nil =>
    intro i fs r hr
    rw [show newFileSystemLoop [] i fs = .ok fs from rfl] at hr
    cases hr
    simp [partEntries]
  | cons p ps ih =>
    intro i fs r hr
    by_cases hemp : goTrimSpace p = []
    · have hview : partView p = .empty := by simp [partView, hemp]
      have hloop : newFileSystemLoop (p :: ps) i fs =
          newFileSystemLoop ps (i + 1) fs := by
        simp [newFileSystemLoop, hemp]
      rw [hloop] at hr
      rw [ih _ _ _ hr]
      simp [partEntries, hview]
    · rcases hsp : goSplitN2 (goTrimSpace p) ['\n'] with - | ⟨first, rest⟩
      · rw [show newFileSystemLoop (p :: ps) i fs =
            .error (.malformedPart (i + 1)) from by
          simp [newFileSystemLoop, hemp, hsp]] at hr
        cases hr
      · rcases rest with - | ⟨body, rest2⟩
        · rw [show newFileSystemLoop (p :: ps) i fs =
              .error (.malformedPart (i + 1)) from by
            simp [newFileSystemLoop, hemp, hsp]] at hr
          cases hr
        · rcases rest2 with - | ⟨x, rest3⟩
          · by_cases hname : goTrimSpace first = []
            · rw [show newFileSystemLoop (p :: ps) i fs =
                  .error (.malformedPart (i + 1)) from by
                simp [newFileSystemLoop, hemp, hsp, hname]] at hr
              cases hr
            · by_cases hdup : (fsLookup fs (goTrimSpace first)).isSome = true
              · rw [show newFileSystemLoop (p :: ps) i fs =
                    .error (.duplicateName (goTrimSpace first)) from by
                  simp [newFileSystemLoop, hemp, hsp, hname, hdup]] at hr
                cases hr
              · have hview : partView p = .file (goTrimSpace first) body := by
                  simp [partView, hemp, hsp, hname]
                have hloop : newFileSystemLoop (p :: ps) i fs =
                    newFileSystemLoop ps (i + 1)
                      (fs ++ [(goTrimSpace first, body)]) := by
                  simp [newFileSystemLoop, hemp, hsp, hname, hdup]
                rw [hloop] at hr
                rw [ih _ _ _ hr]
                simp [partEntries, hview]
          · rw [show newFileSystemLoop (p :: ps) i fs =
                .error (.malformedPart (i + 1)) from by
              simp [newFileSystemLoop, hemp, hsp]] at hr
            cases hr

/-- C9: `NewFileSystem` succeeds iff every non-empty part of the bundle
(the pieces of `"\n" + txt` around each line starting with `#`) is
well-formed — a name line followed by at least one body line — and no
two parts carry the same (trimmed first-line) name; duplicates and
malformed parts are rejected at parse time.  On success the resulting
file system maps each part's name to the remainder of the part, in
order. -/
theorem newFileSystem_spec (txt : List Char) :
    ((∃ r, newFileSystem txt = .ok r) ↔
      ((∀ p ∈ goSplitNlHash ('\n' :: txt), partView p ≠ .malformed) ∧
        ((partEntries (goSplitNlHash ('\n' :: txt))).map Prod.fst).Nodup)) ∧
    ∀ r, newFileSystem txt = .ok r →
      r = partEntries (goSplitNlHash ('\n' :: txt)) := by
  constructor
  · rw [show newFileSystem txt =
        newFileSystemLoop (goSplitNlHash ('\n' :: txt)) 0 [] from rfl,
      newFileSystemLoop_ok_iff]
    constructor
    · rintro ⟨h1, h2, -⟩
      exact ⟨h1, h2⟩
    · rintro ⟨h1, h2⟩
      exact ⟨h1, h2, fun nm _ => rfl⟩
  · intro r hr
    have hval := newFileSystemLoop_ok_val _ 0 [] r hr
    simpa using hval

/-- Witness for C9: the two-line bundle `"# a\nb"` parses into the single
file `a` with body `b`. -/
theorem newFileSystem_spec_witness :
    ([(['a'], ['b'])] : List (List Char × List Char)) =
      partEntries (goSplitNlHash ('\n' :: ("# a\nb").toList)) :=
  (newFileSystem_spec ("# a\nb").toList).2 [(['a'], ['b'])] rfl
